import Mathlib

/-!
Shallow embedding of the free-list heap allocator of `src/allocator.rs`
(`ListNode`, `LinkedListAllocator`, `align_up`) and of the allocation
binding of `src/allocator/global_impl.rs` (`alloc`/`dealloc` on
`Locked<LinkedListAllocator>`).

The free list is represented as the list of blocks hanging off the
sentinel head, in link order; each `Block` records the node's address
(`start_addr`) and its `size` field.  Addresses and sizes (`usize` in the
source) are modelled as natural numbers: no reachable value in any claim
comes anywhere near `2^64`, with one exception — the subtraction
`addr + size - aligned_addr` in `add_free_region` can underflow for
unaligned tiny regions, so that subtraction is modelled with 64-bit
two's-complement wrapping (`usize_sub`), which is the release-build
semantics of `usize` subtraction.  The subtraction
`next_node.end_addr() - new_free_addr` in the split branch of
`find_region` cannot underflow (guarded by `can_fit`), so plain natural
subtraction coincides with the machine behaviour there.
-/

namespace KernelHeap

/-- `WORD_64` of `allocator.rs`: base word alignment, 8 bytes. -/
def WORD_64 : Nat := 8

/-- `mem::size_of::<ListNode>()` on the 64-bit target: an 8-byte `usize`
plus an 8-byte `Option<&'static mut ListNode>` (niche-optimised). -/
def listNodeSize : Nat := 16

/-- `mem::align_of::<ListNode>()` on the 64-bit target. -/
def listNodeAlign : Nat := 8

/-- One more than `usize::MAX`. -/
def USIZE_MOD : Nat := 2 ^ 64

/-- `align_up` of `allocator.rs`, verbatim on naturals. -/
def align_up (addr align : Nat) : Nat :=
  let reminder := addr % align
  if reminder = 0 then addr else addr + align - reminder

/-- A free-list node: its own address (the node is stored at the start of
the region it describes) together with its `size` field.  The `next`
pointer of the source is represented by list order. -/
structure Block where
  addr : Nat
  size : Nat
deriving DecidableEq, Repr

/-- `ListNode::start_addr`. -/
def Block.start_addr (b : Block) : Nat := b.addr

/-- `ListNode::end_addr`. -/
def Block.end_addr (b : Block) : Nat := b.addr + b.size

/-- `FitResult` of `allocator.rs`. -/
inductive FitResult where
  | Perfect (addr : Nat)
  | Split (addr : Nat)
deriving DecidableEq, Repr

/-- `ListNode::can_fit`, verbatim. -/
def can_fit (b : Block) (size align : Nat) : Option FitResult :=
  let aligned_address := align_up b.start_addr align
  let end_alloc := aligned_address + size
  if end_alloc = b.end_addr then some (.Perfect aligned_address)
  else if end_alloc + listNodeSize ≤ b.end_addr then some (.Split aligned_address)
  else none

/-- `LinkedListAllocator::find_region`.  Returns the allocated address and
the free list after the call; `none` when no block fits (in which case the
source leaves the list untouched). -/
def find_region : List Block → Nat → Nat → Option (Nat × List Block)
  | [], _, _ => none
  | b :: rest, size, align =>
    match can_fit b size align with
    | some (.Perfect addr) => some (addr, rest)
    | some (.Split addr) =>
      let alloc_end := addr + size
      let new_free_addr := align_up alloc_end listNodeAlign
      let new_free_size := b.end_addr - new_free_addr
      some (addr, ⟨new_free_addr, new_free_size⟩ :: rest)
    | none =>
      match find_region rest size align with
      | some (a, rest2) => some (a, b :: rest2)
      | none => none

/-- 64-bit wrapping subtraction of `usize` values (release-build
semantics of `a - b`); correct for `a, b < 2^64`. -/
def usize_sub (a b : Nat) : Nat :=
  (a % USIZE_MOD + USIZE_MOD - b % USIZE_MOD) % USIZE_MOD

/-- The insertion loop of `add_free_region`: advance while the next
node's start address is not greater than the new address, then splice the
new node in. -/
def insertPoint : List Block → Block → List Block
  | [], n => [n]
  | x :: xs, n => if x.addr > n.addr then n :: x :: xs else x :: insertPoint xs n

/-- `LinkedListAllocator::add_free_region`, verbatim: round the address up
to `WORD_64`, recompute the size (wrapping `usize` subtraction), drop the
region when the recomputed size cannot hold a `ListNode`, otherwise write
the node and splice it into the address-ordered list. -/
def add_free_region (list : List Block) (addr size : Nat) : List Block :=
  let aligned_addr := align_up addr WORD_64
  let current_size := usize_sub (addr + size) aligned_addr
  if current_size < listNodeSize then list
  else insertPoint list ⟨aligned_addr, current_size⟩

/-- `LinkedListAllocator::init`: delegates to `add_free_region`. -/
def init (list : List Block) (heap_start heap_size : Nat) : List Block :=
  add_free_region list heap_start heap_size

/-- The null pointer returned by `GlobalAlloc::alloc` on failure. -/
def nullPtr : Nat := 0

/-- `GlobalAlloc::alloc` of `global_impl.rs` (lock acquisition elided:
the lock serialises calls, and the state passing models the serialised
history): returns the found address, or the null sentinel leaving the
free list unchanged. -/
def alloc (st : List Block) (size align : Nat) : Nat × List Block :=
  match find_region st size align with
  | some (addr, st2) => (addr, st2)
  | none => (nullPtr, st)

/-- `GlobalAlloc::dealloc` of `global_impl.rs`. -/
def dealloc (st : List Block) (addr size : Nat) : List Block :=
  add_free_region st addr size

/-- Strict address order plus non-overlap between two blocks: `a` lies
entirely below `b`. -/
def blockLt (a b : Block) : Prop :=
  a.addr < b.addr ∧ a.addr + a.size ≤ b.addr

instance (a b : Block) : Decidable (blockLt a b) :=
  inferInstanceAs (Decidable (_ ∧ _))

/-- The free-list invariant of the spec: the chain reachable from the
sentinel head is sorted strictly ascending by start address and no two
listed regions overlap. -/
def FreeListOk (st : List Block) : Prop := List.Pairwise blockLt st

instance (st : List Block) : Decidable (FreeListOk st) :=
  inferInstanceAs (Decidable (List.Pairwise blockLt st))

/-- A call of the public interface: `allocate(size, align)` or
`release(addr, size)` (the latter also covers `init`, which delegates to
the same code path). -/
inductive Op where
  | allocate (size align : Nat)
  | release (addr size : Nat)

/-- Effect of one interface call on the free list. -/
def step (st : List Block) : Op → List Block
  | .allocate s a => (alloc st s a).2
  | .release addr s => dealloc st addr s

/-- Effect of a sequence of interface calls. -/
def run (st : List Block) (ops : List Op) : List Block := ops.foldl step st

/-- Caller-valid arguments, following the spec's caller contract:
an allocation's alignment is a power of two; a released region was handed
out by the allocator and is disjoint from every currently free block,
its usable part `[align_up addr 8, addr + size)` is non-empty, and it
lies within the address space. -/
def validOp (st : List Block) : Op → Prop
  | .allocate _ align => ∃ k, align = 2 ^ k
  | .release addr size =>
    align_up addr WORD_64 ≤ addr + size ∧ addr + size < USIZE_MOD ∧
      ∀ b ∈ st, addr + size ≤ b.addr ∨ b.addr + b.size ≤ align_up addr WORD_64

/-- A sequence of interface calls, each caller-valid for the state it
runs in. -/
inductive ValidSeq : List Block → List Op → Prop
  | nil (st : List Block) : ValidSeq st []
  | cons (st : List Block) (op : Op) (ops : List Op) :
      validOp st op → ValidSeq (step st op) ops → ValidSeq st (op :: ops)

/-! ### Arithmetic facts about `align_up` and `usize_sub` -/

theorem le_align_up (a n : Nat) (hn : 0 < n) : a ≤ align_up a n := by
  have hr : a % n < n := Nat.mod_lt a hn
  by_cases h : a % n = 0
  · simp [align_up, h]
  · simp only [align_up, h, if_false]
    omega

theorem align_up_lt (a n : Nat) (hn : 0 < n) : align_up a n < a + n := by
  have hr : a % n < n := Nat.mod_lt a hn
  by_cases h : a % n = 0
  · simp only [align_up, h, if_true]
    omega
  · simp only [align_up, h, if_false]
    omega

theorem align_up_eq_self (a n : Nat) (h : a % n = 0) : align_up a n = a := by
  unfold align_up
  simp [h]

theorem align_up_mod (a n : Nat) (hn : 0 < n) : align_up a n % n = 0 := by
  unfold align_up
  by_cases h : a % n = 0
  · simp [h]
  · have hd := Nat.div_add_mod a n
    have hr : a % n < n := Nat.mod_lt a hn
    have he : a + n - a % n = n * (a / n + 1) := by
      rw [Nat.mul_succ]; omega
    simp only [h, if_false, he]
    exact Nat.mul_mod_right n (a / n + 1)

theorem align_up_least (a n m : Nat) (hn : 0 < n) (ham : a ≤ m) (hm : m % n = 0) :
    align_up a n ≤ m := by
  unfold align_up
  by_cases h : a % n = 0
  · simp [h, ham]
  · simp only [h, if_false]
    obtain ⟨q, hq⟩ := Nat.dvd_of_mod_eq_zero hm
    have hd := Nat.div_add_mod a n
    have hr : a % n < n := Nat.mod_lt a hn
    have hlt : a / n < q := by
      by_contra hc
      push_neg at hc
      have : n * q ≤ n * (a / n) := Nat.mul_le_mul_left n hc
      omega
    have : n * (a / n + 1) ≤ n * q := Nat.mul_le_mul_left n hlt
    rw [Nat.mul_succ] at this
    omega

/-- A multiple of 8 rounded up to a power-of-two alignment stays a
multiple of 8 (the alignment either divides 8 or is a multiple of it). -/
theorem align_up_pow2_mod8 (a k : Nat) (h8 : a % 8 = 0) :
    align_up a (2 ^ k) % 8 = 0 := by
  have h83 : (8 : Nat) = 2 ^ 3 := by norm_num
  have hpos : 0 < 2 ^ k := Nat.two_pow_pos k
  rcases Nat.le_total k 3 with hk | hk
  · have hdvd : 2 ^ k ∣ a := by
      have h1 : 2 ^ k ∣ 8 := by rw [h83]; exact Nat.pow_dvd_pow 2 hk
      exact h1.trans (Nat.dvd_of_mod_eq_zero h8)
    rw [align_up_eq_self a _ (Nat.mod_eq_zero_of_dvd hdvd)]
    exact h8
  · have hdvd : (8 : Nat) ∣ align_up a (2 ^ k) := by
      have h1 : (8 : Nat) ∣ 2 ^ k := by rw [h83]; exact Nat.pow_dvd_pow 2 hk
      exact h1.trans (Nat.dvd_of_mod_eq_zero (align_up_mod a _ hpos))
    exact Nat.mod_eq_zero_of_dvd hdvd

theorem usize_sub_eq (a b : Nat) (hb : b ≤ a) (ha : a < USIZE_MOD) :
    usize_sub a b = a - b := by
  unfold usize_sub
  have hbm : b % USIZE_MOD = b := Nat.mod_eq_of_lt (by omega)
  have ham : a % USIZE_MOD = a := Nat.mod_eq_of_lt ha
  rw [ham, hbm]
  have he : a + USIZE_MOD - b = (a - b) + USIZE_MOD := by omega
  rw [he, Nat.add_mod_right]
  exact Nat.mod_eq_of_lt (by omega)

/-! ### Facts about `can_fit` -/

theorem can_fit_perfect (b : Block) (s al r : Nat)
    (h : can_fit b s al = some (.Perfect r)) :
    r = align_up b.start_addr al ∧ r + s = b.end_addr := by
  simp only [can_fit] at h
  split at h
  · simp only [Option.some.injEq, FitResult.Perfect.injEq] at h
    subst h; exact ⟨rfl, by omega⟩
  · split at h <;> simp at h

theorem can_fit_split (b : Block) (s al r : Nat)
    (h : can_fit b s al = some (.Split r)) :
    r = align_up b.start_addr al ∧ r + s + listNodeSize ≤ b.end_addr ∧
      r + s ≠ b.end_addr := by
  simp only [can_fit] at h
  split at h
  · simp at h
  · split at h
    · simp only [Option.some.injEq, FitResult.Split.injEq] at h
      subst h
      refine ⟨rfl, by omega, by omega⟩
    · simp at h

theorem can_fit_shape (b : Block) (s al : Nat) (res : FitResult)
    (h : can_fit b s al = some res) :
    res = .Perfect (align_up b.start_addr al) ∨
      res = .Split (align_up b.start_addr al) := by
  simp only [can_fit] at h
  split at h
  · simp only [Option.some.injEq] at h; exact Or.inl h.symm
  · split at h
    · simp only [Option.some.injEq] at h; exact Or.inr h.symm
    · simp at h

/-! ### Unfolding equations for `find_region` -/

theorem find_region_cons_perfect (b : Block) (rest : List Block) (s al r : Nat)
    (h : can_fit b s al = some (.Perfect r)) :
    find_region (b :: rest) s al = some (r, rest) := by
  simp [find_region, h]

theorem find_region_cons_split (b : Block) (rest : List Block) (s al r : Nat)
    (h : can_fit b s al = some (.Split r)) :
    find_region (b :: rest) s al =
      some (r, ⟨align_up (r + s) listNodeAlign,
                b.end_addr - align_up (r + s) listNodeAlign⟩ :: rest) := by
  simp [find_region, h]

theorem find_region_cons_none (b : Block) (rest : List Block) (s al : Nat)
    (h : can_fit b s al = none) :
    find_region (b :: rest) s al =
      match find_region rest s al with
      | some p => some (p.1, b :: p.2)
      | none => none := by
  simp only [find_region, h]
  cases hr : find_region rest s al with
  | none => rfl
  | some p => rfl

theorem find_region_append_none (pre rest : List Block) (s al : Nat)
    (hpre : ∀ x ∈ pre, can_fit x s al = none) :
    find_region (pre ++ rest) s al =
      match find_region rest s al with
      | some p => some (p.1, pre ++ p.2)
      | none => none := by
  induction pre with
  | nil =>
    simp only [List.nil_append]
    cases find_region rest s al with
    | none => rfl
    | some p => rfl
  | cons x xs ih =>
    have hx : can_fit x s al = none := hpre x (by simp)
    have hxs : ∀ y ∈ xs, can_fit y s al = none := fun y hy => hpre y (by simp [hy])
    rw [List.cons_append, find_region_cons_none x _ s al hx, ih hxs]
    cases find_region rest s al with
    | none => rfl
    | some p => rfl

/-- Every successful `find_region` call takes its result from some block
of the list: the returned address is that block's alignment-adjusted
start, via a `Perfect` or a `Split` classification. -/
theorem find_region_source : ∀ (st : List Block) (s al r : Nat) (st2 : List Block),
    find_region st s al = some (r, st2) →
    ∃ b ∈ st, can_fit b s al = some (.Perfect r) ∨ can_fit b s al = some (.Split r)
  | [], s, al, r, st2, h => by simp [find_region] at h
  | b :: rest, s, al, r, st2, h => by
    rcases hfit : can_fit b s al with _ | res
    · rw [find_region_cons_none b rest s al hfit] at h
      cases hrec : find_region rest s al with
      | none => rw [hrec] at h; simp at h
      | some p =>
        rw [hrec] at h
        simp only [Option.some.injEq, Prod.mk.injEq] at h
        obtain ⟨b2, hb2, hor⟩ := find_region_source rest s al p.1 p.2 (by rw [hrec])
        exact ⟨b2, by simp [hb2], h.1 ▸ hor⟩
    · rcases res with a | a
      · rw [find_region_cons_perfect b rest s al a hfit] at h
        simp only [Option.some.injEq, Prod.mk.injEq] at h
        exact ⟨b, by simp, Or.inl (h.1 ▸ hfit)⟩
      · rw [find_region_cons_split b rest s al a hfit] at h
        simp only [Option.some.injEq, Prod.mk.injEq] at h
        exact ⟨b, by simp, Or.inr (h.1 ▸ hfit)⟩

/-- If some block of the list fits, `find_region` succeeds. -/
theorem find_region_of_fit : ∀ (st : List Block) (s al : Nat),
    (∃ b ∈ st, can_fit b s al ≠ none) →
    ∃ r st2, find_region st s al = some (r, st2)
  | [], s, al, h => by simp at h
  | b :: rest, s, al, h => by
    rcases hfit : can_fit b s al with _ | res
    · have hrest : ∃ b2 ∈ rest, can_fit b2 s al ≠ none := by
        obtain ⟨b2, hb2, hne⟩ := h
        rcases List.mem_cons.mp hb2 with rfl | hm
        · exact absurd hfit hne
        · exact ⟨b2, hm, hne⟩
      obtain ⟨r, st2, hr⟩ := find_region_of_fit rest s al hrest
      refine ⟨r, b :: st2, ?_⟩
      rw [find_region_cons_none b rest s al hfit, hr]
    · rcases res with a | a
      · exact ⟨a, rest, find_region_cons_perfect b rest s al a hfit⟩
      · exact ⟨a, _, find_region_cons_split b rest s al a hfit⟩

/-! ### Preservation of the sorted/non-overlap invariant -/

/-- `find_region` keeps the free list sorted and non-overlapping, and
keeps every block above any lower bound that bounded the whole input
list. -/
theorem find_region_pairwise : ∀ (st : List Block) (s al r : Nat) (st2 : List Block),
    0 < al → find_region st s al = some (r, st2) → List.Pairwise blockLt st →
    List.Pairwise blockLt st2 ∧
      ∀ c : Block, (∀ x ∈ st, blockLt c x) → ∀ x ∈ st2, blockLt c x
  | [], s, al, r, st2, hal, h, hp => by simp [find_region] at h
  | b :: rest, s, al, r, st2, hal, h, hp => by
    have hpr : List.Pairwise blockLt rest := (List.pairwise_cons.mp hp).2
    have hbr : ∀ x ∈ rest, blockLt b x := (List.pairwise_cons.mp hp).1
    rcases hfit : can_fit b s al with _ | res
    · rw [find_region_cons_none b rest s al hfit] at h
      cases hrec : find_region rest s al with
      | none => rw [hrec] at h; simp at h
      | some p =>
        rw [hrec] at h
        simp only [Option.some.injEq, Prod.mk.injEq] at h
        obtain ⟨hp2, hlb⟩ :=
          find_region_pairwise rest s al p.1 p.2 hal (by rw [hrec]) hpr
        obtain ⟨rfl, rfl⟩ := h
        constructor
        · rw [List.pairwise_cons]
          exact ⟨hlb b hbr, hp2⟩
        · intro c hc x hx
          rcases List.mem_cons.mp hx with rfl | hm
          · exact hc x (by simp)
          · exact hlb c (fun y hy => hc y (by simp [hy])) x hm
    · rcases res with a | a
      · rw [find_region_cons_perfect b rest s al a hfit] at h
        simp only [Option.some.injEq, Prod.mk.injEq] at h
        obtain ⟨rfl, rfl⟩ := h
        exact ⟨hpr, fun c hc x hx => hc x (by simp [hx])⟩
      · rw [find_region_cons_split b rest s al a hfit] at h
        simp only [Option.some.injEq, Prod.mk.injEq] at h
        obtain ⟨rfl, rfl⟩ := h
        obtain ⟨hra, hsp, _⟩ := can_fit_split b s al a hfit
        have hba : b.addr ≤ a := by
          rw [hra]; exact le_align_up _ al hal
        have hA1 : a + s ≤ align_up (a + s) listNodeAlign :=
          le_align_up _ _ (by norm_num [listNodeAlign])
        have hA2 : align_up (a + s) listNodeAlign < a + s + listNodeAlign :=
          align_up_lt _ _ (by norm_num [listNodeAlign])
        have e1 : listNodeAlign = 8 := rfl
        have e2 : listNodeSize = 16 := rfl
        simp only [Block.end_addr] at hsp
        constructor
        · rw [List.pairwise_cons]
          refine ⟨fun x hx => ?_, hpr⟩
          obtain ⟨hlt, hle⟩ := hbr x hx
          simp only [blockLt, Block.end_addr] at hlt hle ⊢
          omega
        · intro c hc x hx
          rcases List.mem_cons.mp hx with rfl | hm
          · obtain ⟨hlt, hle⟩ := hc b (by simp)
            simp only [blockLt, Block.end_addr] at hlt hle ⊢
            omega
          · exact hc x (by simp [hm])

/-- `find_region` never shrinks a block below 1 byte: the split remnant
is non-empty (in fact at least 9 bytes) and all other blocks keep their
sizes. -/
theorem find_region_sizes : ∀ (st : List Block) (s al r : Nat) (st2 : List Block),
    find_region st s al = some (r, st2) → (∀ x ∈ st, 0 < x.size) →
    ∀ x ∈ st2, 0 < x.size
  | [], s, al, r, st2, h, hpos => by simp [find_region] at h
  | b :: rest, s, al, r, st2, h, hpos => by
    have hpos2 : ∀ x ∈ rest, 0 < x.size := fun x hx => hpos x (by simp [hx])
    rcases hfit : can_fit b s al with _ | res
    · rw [find_region_cons_none b rest s al hfit] at h
      cases hrec : find_region rest s al with
      | none => rw [hrec] at h; simp at h
      | some p =>
        rw [hrec] at h
        simp only [Option.some.injEq, Prod.mk.injEq] at h
        obtain ⟨_, rfl⟩ := h
        intro x hx
        rcases List.mem_cons.mp hx with rfl | hm
        · exact hpos x (by simp)
        · exact find_region_sizes rest s al p.1 p.2 (by rw [hrec]) hpos2 x hm
    · rcases res with a | a
      · rw [find_region_cons_perfect b rest s al a hfit] at h
        simp only [Option.some.injEq, Prod.mk.injEq] at h
        obtain ⟨rfl, rfl⟩ := h
        exact hpos2
      · rw [find_region_cons_split b rest s al a hfit] at h
        simp only [Option.some.injEq, Prod.mk.injEq] at h
        obtain ⟨rfl, rfl⟩ := h
        obtain ⟨hra, hsp, _⟩ := can_fit_split b s al a hfit
        have hA2 : align_up (a + s) listNodeAlign < a + s + listNodeAlign :=
          align_up_lt _ _ (by norm_num [listNodeAlign])
        have e1 : listNodeAlign = 8 := rfl
        have e2 : listNodeSize = 16 := rfl
        simp only [Block.end_addr] at hsp
        intro x hx
        rcases List.mem_cons.mp hx with rfl | hm
        · simp only [Block.end_addr]
          omega
        · exact hpos2 x hm

theorem mem_insertPoint : ∀ (st : List Block) (n x : Block),
    x ∈ insertPoint st n ↔ x ∈ st ∨ x = n
  | [], n, x => by simp [insertPoint]
  | y :: ys, n, x => by
    unfold insertPoint
    split
    · simp only [List.mem_cons]
      tauto
    · rw [List.mem_cons, List.mem_cons, mem_insertPoint ys n x]
      tauto

/-- Splicing a positive-size block that is disjoint from every listed
block keeps the list sorted and non-overlapping. -/
theorem insertPoint_pairwise : ∀ (st : List Block) (n : Block),
    List.Pairwise blockLt st → 0 < n.size → (∀ x ∈ st, 0 < x.size) →
    (∀ x ∈ st, n.addr + n.size ≤ x.addr ∨ x.addr + x.size ≤ n.addr) →
    List.Pairwise blockLt (insertPoint st n)
  | [], n, hp, hn, hpos, hdisj => by simp [insertPoint, List.pairwise_cons]
  | y :: ys, n, hp, hn, hpos, hdisj => by
    have hpy : List.Pairwise blockLt ys := (List.pairwise_cons.mp hp).2
    have hyy : ∀ x ∈ ys, blockLt y x := (List.pairwise_cons.mp hp).1
    have htot : ∀ x ∈ y :: ys, blockLt n x ∨ blockLt x n := by
      intro x hx
      rcases hdisj x hx with h | h
      · exact Or.inl ⟨by have := hn; omega, h⟩
      · exact Or.inr ⟨by have := hpos x hx; omega, h⟩
    unfold insertPoint
    split
    · rename_i hgt
      rw [List.pairwise_cons]
      refine ⟨fun x hx => ?_, hp⟩
      rcases htot x hx with h | h
      · exact h
      · obtain ⟨h1, _⟩ := h
        rcases List.mem_cons.mp hx with heq | hm
        · rw [heq] at h1
          omega
        · obtain ⟨h2, _⟩ := hyy x hm
          omega
    · rename_i hng
      rw [List.pairwise_cons]
      constructor
      · intro x hx
        rcases (mem_insertPoint ys n x).mp hx with hm | rfl
        · exact hyy x hm
        · rcases htot y (List.mem_cons_self y ys) with h | h
          · obtain ⟨h1, _⟩ := h
            omega
          · exact h
      · exact insertPoint_pairwise ys n hpy hn
          (fun x hx => hpos x (by simp [hx]))
          (fun x hx => hdisj x (by simp [hx]))

/-- Releasing a region that is caller-valid for the current list keeps
the list sorted and non-overlapping. -/
theorem add_free_region_pairwise (st : List Block) (addr size : Nat)
    (h8 : align_up addr WORD_64 ≤ addr + size)
    (hbound : addr + size < USIZE_MOD)
    (hdisj : ∀ b ∈ st, addr + size ≤ b.addr ∨ b.addr + b.size ≤ align_up addr WORD_64)
    (hpos : ∀ x ∈ st, 0 < x.size) (hp : List.Pairwise blockLt st) :
    List.Pairwise blockLt (add_free_region st addr size) := by
  simp only [add_free_region]
  have hcs : usize_sub (addr + size) (align_up addr WORD_64) =
      addr + size - align_up addr WORD_64 := usize_sub_eq _ _ h8 hbound
  rw [hcs]
  split
  · exact hp
  · rename_i hge
    apply insertPoint_pairwise st _ hp
    · simp only [listNodeSize] at hge
      simp only []
      omega
    · exact hpos
    · intro x hx
      rcases hdisj x hx with h | h
      · exact Or.inl (by simp only []; omega)
      · exact Or.inr (by simp only []; omega)

theorem add_free_region_sizes (st : List Block) (addr size : Nat)
    (hpos : ∀ x ∈ st, 0 < x.size) :
    ∀ x ∈ add_free_region st addr size, 0 < x.size := by
  simp only [add_free_region]
  split
  · exact hpos
  · rename_i hge
    intro x hx
    rcases (mem_insertPoint st _ x).mp hx with hm | rfl
    · exact hpos x hm
    · simp only [listNodeSize] at hge
      simp only []
      omega

/-- The inductive invariant carried across an operation sequence: the
list is sorted and non-overlapping, and every block is non-empty. -/
def GoodState (st : List Block) : Prop :=
  List.Pairwise blockLt st ∧ ∀ x ∈ st, 0 < x.size

theorem step_good (st : List Block) (op : Op)
    (hv : validOp st op) (hg : GoodState st) : GoodState (step st op) := by
  obtain ⟨hp, hpos⟩ := hg
  cases op with
  | allocate s al =>
    obtain ⟨k, rfl⟩ := hv
    have hal : 0 < 2 ^ k := Nat.two_pow_pos k
    simp only [step, alloc]
    cases hfr : find_region st s (2 ^ k) with
    | none => exact ⟨hp, hpos⟩
    | some p =>
      constructor
      · exact (find_region_pairwise st s (2 ^ k) p.1 p.2 hal (by rw [hfr]) hp).1
      · exact find_region_sizes st s (2 ^ k) p.1 p.2 (by rw [hfr]) hpos
  | release addr s =>
    obtain ⟨h8, hbound, hdisj⟩ := hv
    exact ⟨add_free_region_pairwise st addr s h8 hbound hdisj hpos hp,
      add_free_region_sizes st addr s hpos⟩

theorem validSeq_take (st : List Block) (pre suf : List Op)
    (h : ValidSeq st (pre ++ suf)) : ValidSeq st pre := by
  induction pre generalizing st with
  | nil => exact ValidSeq.nil st
  | cons op ops ih =>
    cases h with
    | cons _ _ _ hv hrest =>
      exact ValidSeq.cons st op ops hv (ih (step st op) hrest)

theorem run_good (st : List Block) (ops : List Op)
    (hg : GoodState st) (hv : ValidSeq st ops) : GoodState (run st ops) := by
  induction ops generalizing st with
  | nil => exact hg
  | cons op rest ih =>
    cases hv with
    | cons _ _ _ hvo hrest =>
      exact ih (step st op) (step_good st op hvo hg) hrest

/-! ### Claims -/

/-- C1: for every sequence of `allocate`/`release` calls with caller-valid
arguments, after every call the chain of free-list nodes reachable from
the sentinel head is sorted strictly ascending by node start address and
no two listed regions overlap. -/
theorem C1_free_list_sorted_disjoint (pre suf : List Op)
    (h : ValidSeq [] (pre ++ suf)) : FreeListOk (run [] pre) :=
  (run_good [] pre ⟨List.Pairwise.nil, by simp⟩ (validSeq_take [] pre suf h)).1

theorem C1_free_list_sorted_disjoint_witness :
    FreeListOk (run [] [Op.release 4096 4096, Op.allocate 32 8]) :=
  C1_free_list_sorted_disjoint [Op.release 4096 4096, Op.allocate 32 8] []
    (ValidSeq.cons _ _ _ ⟨by decide, by decide, by simp⟩
      (ValidSeq.cons _ _ _ ⟨3, rfl⟩ (ValidSeq.nil _)))

/-- C2: when `find_region` classifies a block as a split fit for
`(size, align)`, it writes exactly one new descriptor at
`align_up (aligned_start + size) listNodeAlign`, with size equal to the
old block's end address minus that new address, carrying over the old
block's successor links, with the predecessor chain linked to the new
descriptor in place of the old block, and returns the alignment-adjusted
start of the old block. -/
theorem C2_split_fit_rewrites_list (pre post : List Block) (b : Block) (s al r : Nat)
    (hpre : ∀ x ∈ pre, can_fit x s al = none)
    (hb : can_fit b s al = some (.Split r)) :
    find_region (pre ++ b :: post) s al =
      some (r, pre ++ ⟨align_up (r + s) listNodeAlign,
        b.end_addr - align_up (r + s) listNodeAlign⟩ :: post) ∧
    r = align_up b.start_addr al := by
  constructor
  · rw [find_region_append_none pre (b :: post) s al hpre,
      find_region_cons_split b post s al r hb]
  · exact (can_fit_split b s al r hb).1

theorem C2_split_fit_rewrites_list_witness :
    find_region [(⟨4096, 64⟩ : Block)] 16 8 = some (4096, [⟨4112, 48⟩]) :=
  (C2_split_fit_rewrites_list [] [] ⟨4096, 64⟩ 16 8 4096 (by simp) (by decide)).1

/-- C3: for every free block and request `(size, align)` with `align` a
power of two, `can_fit` computes the alignment-adjusted start address and
classifies `Perfect` exactly when the allocation's end equals the block's
end, `Split` exactly when the allocation's end plus one header still fits
in the block (and `Perfect` does not apply), and no-fit otherwise, in
which case `find_region` advances to the next block instead of consuming
this one. -/
theorem C3_can_fit_classification (b : Block) (s al k : Nat) (hal : al = 2 ^ k) :
    (can_fit b s al = some (.Perfect (align_up b.start_addr al)) ↔
      align_up b.start_addr al + s = b.end_addr) ∧
    (can_fit b s al = some (.Split (align_up b.start_addr al)) ↔
      (align_up b.start_addr al + s ≠ b.end_addr ∧
        align_up b.start_addr al + s + listNodeSize ≤ b.end_addr)) ∧
    (can_fit b s al = none ↔
      (align_up b.start_addr al + s ≠ b.end_addr ∧
        ¬(align_up b.start_addr al + s + listNodeSize ≤ b.end_addr))) ∧
    (can_fit b s al = none → ∀ rest : List Block,
      find_region (b :: rest) s al =
        match find_region rest s al with
        | some p => some (p.1, b :: p.2)
        | none => none) := by
  refine ⟨?_, ?_, ?_, fun h rest => find_region_cons_none b rest s al h⟩ <;>
    · simp only [can_fit]
      split_ifs with h1 h2 <;> simp_all

theorem C3_can_fit_classification_witness :
    can_fit ⟨4096, 48⟩ 16 8 = some (.Perfect (align_up (Block.start_addr ⟨4096, 48⟩) 8)) ↔
      align_up (Block.start_addr ⟨4096, 48⟩) 8 + 16 = Block.end_addr ⟨4096, 48⟩ :=
  (C3_can_fit_classification ⟨4096, 48⟩ 16 8 3 rfl).1

/-- C4 (code bug evaluation): the claim that every live free block keeps
`size ≥ listNodeSize` is violated by the code.  From the caller-valid
history `init(0x1000, 17)`, the caller-valid request `allocate(1, 1)` is
classified `Split` (the check `end_alloc + 16 ≤ block_end` passes), but
the new node is placed at `align_up(end_alloc, 8)`, which eats 7 of those
16 bytes: the call leaves a live free node of size 9 < 16 (whose 16-byte
header physically overruns the block's end). -/
theorem C4_split_leaves_undersized_node :
    init [] 4096 17 = [⟨4096, 17⟩] ∧
    find_region [⟨4096, 17⟩] 1 1 = some (4096, [⟨4104, 9⟩]) ∧
    Block.size ⟨4104, 9⟩ < listNodeSize := by decide

/-- C5: when `find_region` classifies a block as a perfect fit, it
removes exactly that one node from the list (predecessors and successors
unchanged, the predecessor now linked to the removed block's successor)
and returns the block's alignment-adjusted start address. -/
theorem C5_perfect_fit_unlinks_one_node (pre post : List Block) (b : Block)
    (s al r : Nat)
    (hpre : ∀ x ∈ pre, can_fit x s al = none)
    (hb : can_fit b s al = some (.Perfect r)) :
    find_region (pre ++ b :: post) s al = some (r, pre ++ post) ∧
      r = align_up b.start_addr al := by
  constructor
  · rw [find_region_append_none pre (b :: post) s al hpre,
      find_region_cons_perfect b post s al r hb]
  · exact (can_fit_perfect b s al r hb).1

theorem C5_perfect_fit_unlinks_one_node_witness :
    find_region [(⟨4096, 32⟩ : Block), ⟨8192, 32⟩] 32 8 = some (4096, [⟨8192, 32⟩]) :=
  (C5_perfect_fit_unlinks_one_node [] [⟨8192, 32⟩] ⟨4096, 32⟩ 32 8 4096
    (by simp) (by decide)).1

/-- C6: `alloc` returns the found address exactly when `find_region`
finds a fitting region and the null sentinel exactly when none fits
(total function, no abort); a failing call leaves the free list
unchanged, so any sequence of requests that fail on the current list
keeps failing with the list unchanged, until a release changes the
list. -/
theorem C6_alloc_failure_behaviour (st : List Block) (s al : Nat) :
    (∀ r st2, find_region st s al = some (r, st2) → alloc st s al = (r, st2)) ∧
    (find_region st s al = none → alloc st s al = (nullPtr, st)) ∧
    (∀ reqs : List (Nat × Nat),
      (∀ p ∈ reqs, find_region st p.1 p.2 = none) →
      List.foldl (fun acc p => (alloc acc p.1 p.2).2) st reqs = st ∧
        ∀ p ∈ reqs, (alloc st p.1 p.2).1 = nullPtr) := by
  refine ⟨fun r st2 h => by simp [alloc, h], fun h => by simp [alloc, h], ?_⟩
  intro reqs h
  refine ⟨?_, fun p hp => by simp [alloc, h p hp, nullPtr]⟩
  induction reqs with
  | nil => rfl
  | cons p ps ih =>
    have hp : (alloc st p.1 p.2).2 = st := by simp [alloc, h p (by simp)]
    simp only [List.foldl_cons, hp]
    exact ih (fun q hq => h q (by simp [hq]))

theorem C6_alloc_failure_behaviour_witness :
    List.foldl (fun acc p => (alloc acc p.1 p.2).2) [] [((8 : Nat), (8 : Nat))] = [] ∧
      ∀ p ∈ [((8 : Nat), (8 : Nat))], (alloc [] p.1 p.2).1 = nullPtr :=
  (C6_alloc_failure_behaviour [] 8 8).2.2 [(8, 8)] (by decide)

/-- C7 (code bug evaluation): the claim that a region whose recomputed
size is smaller than one header is discarded with the list exactly
unchanged is violated by the code when the rounded address overshoots the
region's end: for `add_free_region(1, 2)` the distance from
`align_up(1, 8) = 8` to `1 + 2 = 3` is zero bytes, yet the `usize`
subtraction `addr + size - aligned_addr` wraps to `2^64 - 5`, the
too-small guard is missed, and a bogus huge node is inserted (a checked
build would panic on the underflow instead). -/
theorem C7_underflow_region_not_discarded :
    add_free_region [] 1 2 = [⟨8, 18446744073709551611⟩] ∧
    add_free_region [] 1 2 ≠ [] ∧
    1 + 2 < align_up 1 WORD_64 := by decide

/-- C8: for a power-of-two alignment, `align_up` returns the smallest
multiple of the alignment that is at least the address (the address
itself when already aligned); consequently every address returned by a
successful `find_region` is a multiple of the requested alignment. -/
theorem C8_align_up_correct (addr k : Nat) :
    align_up addr (2 ^ k) % 2 ^ k = 0 ∧
    addr ≤ align_up addr (2 ^ k) ∧
    (∀ m, addr ≤ m → m % 2 ^ k = 0 → align_up addr (2 ^ k) ≤ m) ∧
    (addr % 2 ^ k = 0 → align_up addr (2 ^ k) = addr) ∧
    (∀ (st : List Block) (s r : Nat) (st2 : List Block),
      find_region st s (2 ^ k) = some (r, st2) → r % 2 ^ k = 0) := by
  have hpos : 0 < 2 ^ k := Nat.two_pow_pos k
  refine ⟨align_up_mod addr _ hpos, le_align_up addr _ hpos,
    fun m h1 h2 => align_up_least addr _ m hpos h1 h2,
    fun h => align_up_eq_self addr _ h, ?_⟩
  intro st s r st2 h
  obtain ⟨b, _, hor⟩ := find_region_source st s (2 ^ k) r st2 h
  rcases hor with h2 | h2
  · rw [(can_fit_perfect b s _ r h2).1]
    exact align_up_mod _ _ hpos
  · rw [(can_fit_split b s _ r h2).1]
    exact align_up_mod _ _ hpos

theorem C8_align_up_correct_witness :
    align_up 5 (2 ^ 3) ≤ 8 ∧ (4096 : Nat) % 2 ^ 3 = 0 :=
  ⟨(C8_align_up_correct 5 3).2.2.1 8 (by decide) (by decide),
    (C8_align_up_correct 4096 3).2.2.2.2 [⟨4096, 32⟩] 32 4096 [] (by decide)⟩

/-- C9 (counterexample): round-trip reuse fails for an allocation smaller
than one descriptor header.  From the caller-valid history
`init(4104, 16)`, `allocate(8, 16)` succeeds with a perfect fit at
address 4112; releasing `(4112, 8)` silently discards the 8-byte region
(smaller than a header), so the immediately repeated `allocate(8, 16)`
fails. -/
theorem C9_roundtrip_fails_for_small_sizes :
    add_free_region [] 4104 16 = [⟨4104, 16⟩] ∧
    find_region [⟨4104, 16⟩] 8 16 = some (4112, []) ∧
    add_free_region [] 4112 8 = [] ∧
    find_region (add_free_region [] 4112 8) 8 16 = none := by decide

/-- C9 (amended): for every `N` of at least one descriptor-header size
and every allocator state with caller-valid history (all block addresses
word-aligned, all blocks inside the address space, alignment a power of
two), `allocate(N)` succeeding, then `release` of that address with size
`N`, then `allocate(N)` again with no intervening allocations, succeeds
on the second allocate. -/
theorem C9_roundtrip_reuse_ge_header (st : List Block) (N al k r : Nat)
    (st2 : List Block)
    (hal : al = 2 ^ k) (hN : listNodeSize ≤ N)
    (haddr : ∀ b ∈ st, b.addr % WORD_64 = 0)
    (hbound : ∀ b ∈ st, b.addr + b.size < USIZE_MOD)
    (hfr : find_region st N al = some (r, st2)) :
    ∃ r2 st3, find_region (add_free_region st2 r N) N al = some (r2, st3) := by
  subst hal
  have hpos : 0 < 2 ^ k := Nat.two_pow_pos k
  obtain ⟨b, hb, hor⟩ := find_region_source st N (2 ^ k) r st2 hfr
  have hr : r = align_up b.addr (2 ^ k) := by
    rcases hor with h | h
    · exact (can_fit_perfect b N _ r h).1
    · exact (can_fit_split b N _ r h).1
  have hrN : r + N < USIZE_MOD := by
    have hbb := hbound b hb
    rcases hor with h | h
    · have h2 := (can_fit_perfect b N _ r h).2
      simp only [Block.end_addr] at h2
      omega
    · have h2 := (can_fit_split b N _ r h).2.1
      simp only [Block.end_addr] at h2
      omega
  have hr8 : r % WORD_64 = 0 := by
    have h2 := align_up_pow2_mod8 b.addr k (by
      have := haddr b hb
      simpa [WORD_64] using this)
    simp only [WORD_64]
    rw [hr]
    exact h2
  have hrk : r % 2 ^ k = 0 := by
    rw [hr]
    exact align_up_mod _ _ hpos
  have hafr : add_free_region st2 r N = insertPoint st2 ⟨r, N⟩ := by
    simp only [add_free_region]
    rw [align_up_eq_self r _ hr8, usize_sub_eq (r + N) r (by omega) hrN]
    have h2 : r + N - r = N := by omega
    rw [h2]
    split
    · rename_i hlt
      exact absurd hlt (by simp only [listNodeSize] at hN ⊢; omega)
    · rfl
  apply find_region_of_fit
  refine ⟨⟨r, N⟩, ?_, ?_⟩
  · rw [hafr]
    exact (mem_insertPoint st2 _ _).mpr (Or.inr rfl)
  · have hralign : align_up r (2 ^ k) = r := align_up_eq_self r _ hrk
    simp [can_fit, Block.start_addr, Block.end_addr, hralign]

theorem C9_roundtrip_reuse_ge_header_witness :
    ∃ r2 st3, find_region (add_free_region [] 4096 32) 32 (2 ^ 3) = some (r2, st3) :=
  C9_roundtrip_reuse_ge_header [⟨4096, 32⟩] 32 (2 ^ 3) 3 4096 [] rfl (by decide)
    (by decide) (by decide) (by decide)

/-- C10: for every successful allocation (perfect or split) from a block
whose start is below the returned alignment-adjusted address, the padding
bytes between the block's start and the returned address are neither part
of the returned allocation `[r, r + s)` nor inside any free-list node
after the call: they are dropped from tracked memory. -/
theorem C10_alignment_padding_untracked (pre post : List Block) (b : Block)
    (s al r : Nat) (st2 : List Block)
    (hok : FreeListOk (pre ++ b :: post))
    (hpre : ∀ x ∈ pre, can_fit x s al = none)
    (hb : can_fit b s al = some (.Perfect r) ∨ can_fit b s al = some (.Split r))
    (hfr : find_region (pre ++ b :: post) s al = some (r, st2))
    (q : Nat) (hq1 : b.start_addr ≤ q) (hq2 : q < r) :
    ¬(r ≤ q ∧ q < r + s) ∧ ∀ x ∈ st2, ¬(x.addr ≤ q ∧ q < x.addr + x.size) := by
  simp only [Block.start_addr] at hq1
  refine ⟨by omega, ?_⟩
  rw [find_region_append_none pre (b :: post) s al hpre] at hfr
  obtain ⟨hp1, hp2, hcross⟩ := List.pairwise_append.mp hok
  have hbpost : ∀ y ∈ post, blockLt b y := (List.pairwise_cons.mp hp2).1
  have hprelt : ∀ x ∈ pre, blockLt x b := fun x hx => hcross x hx b (by simp)
  have hrend : r ≤ b.addr + b.size := by
    rcases hb with h | h
    · have h2 := (can_fit_perfect b s al r h).2
      simp only [Block.end_addr] at h2
      omega
    · have h2 := (can_fit_split b s al r h).2.1
      simp only [Block.end_addr] at h2
      omega
  rcases hb with h | h
  · rw [find_region_cons_perfect b post s al r h] at hfr
    simp only [Option.some.injEq, Prod.mk.injEq] at hfr
    obtain ⟨-, rfl⟩ := hfr
    intro x hx
    rcases List.mem_append.mp hx with hm | hm
    · obtain ⟨h1, h2⟩ := hprelt x hm
      omega
    · obtain ⟨h1, h2⟩ := hbpost x hm
      omega
  · rw [find_region_cons_split b post s al r h] at hfr
    simp only [Option.some.injEq, Prod.mk.injEq] at hfr
    obtain ⟨-, rfl⟩ := hfr
    have hA : r + s ≤ align_up (r + s) listNodeAlign :=
      le_align_up _ _ (by norm_num [listNodeAlign])
    intro x hx
    rcases List.mem_append.mp hx with hm | hm
    · obtain ⟨h1, h2⟩ := hprelt x hm
      omega
    · rcases List.mem_cons.mp hm with rfl | hm2
      · simp only []
        omega
      · obtain ⟨h1, h2⟩ := hbpost x hm2
        omega

theorem C10_alignment_padding_untracked_witness :
    ¬((4104 : Nat) ≤ 4100 ∧ (4100 : Nat) < 4104 + 24) ∧
      ∀ x ∈ ([] : List Block), ¬(x.addr ≤ 4100 ∧ 4100 < x.addr + x.size) :=
  C10_alignment_padding_untracked [] [] ⟨4100, 28⟩ 24 8 4104 [] (by decide)
    (by simp) (Or.inl (by decide)) (by decide) 4100 (by decide) (by decide)

end KernelHeap
